import Mathlib

/-!
Verification of the taint-remover reconciliation core
(norseto/taint-remover, `internal/controller/taintremover_controller.go`).

The data model and the operations below are shallow embeddings of the Go
source.  Kubernetes objects are reduced to the fields the controller reads:
a taint is a `(key, value, effect)` triple, a node is a name plus its taint
list, a TaintRemover source object is its declared taint list.  The client
(`List`/`Get`/`Patch`) is modelled by an oracle record, and every client
call is recorded in an operation log so that claims about "no patch call"
or "every node attempted" are about observable behaviour.
-/

namespace TaintRemover

/-- Taint effect.  `corev1.TaintEffect` is a string type whose valid values
are exactly `NoSchedule`, `PreferNoSchedule` and `NoExecute` (the CRD and
the API documentation list these three); we model it as the enumeration. -/
inductive Effect where
  | noSchedule
  | preferNoSchedule
  | noExecute
deriving DecidableEq, Repr

/-- The wire string of an effect, as interpolated by
`fmt.Sprintf("%s:%s", t.Key, t.Effect)` in `getAllTaintsToRemove`. -/
def Effect.str : Effect → String
  | .noSchedule => "NoSchedule"
  | .preferNoSchedule => "PreferNoSchedule"
  | .noExecute => "NoExecute"

/-- `corev1.Taint`, restricted to the fields the controller reads.
(`TimeAdded` is never consulted by any of the functions under study.) -/
structure Taint where
  key : String
  value : String
  effect : Effect
deriving DecidableEq, Repr

/-- `corev1.Node`, restricted to the fields the controller reads:
`ObjectMeta.Name` and `Spec.Taints`. -/
structure Node where
  name : String
  taints : List Taint
deriving DecidableEq, Repr

/-- A `TaintRemover` custom resource: its `spec.taints` list. -/
structure Remover where
  taints : List Taint
deriving DecidableEq, Repr

/-! ## The `internal/taints` helpers

The repository's `internal/taints` package is not part of the sources here
(only its tests are); the repository's docs describe it as Kubernetes
taint utilities derived from upstream code. -/

/-- Modelled from the spec: `taint.MatchTaint` of the missing
`internal/taints` package.  Per the spec, matching is "keyed on
`(key, effect)`" — "`value` is carried but never used to decide
equality". -/
def MatchTaint (a b : Taint) : Bool :=
  a.key == b.key && a.effect == b.effect

/-- Modelled from the spec: `TaintExists` of the missing `internal/taints`
package — whether some taint of the list matches the given taint on
`(key, effect)`. -/
def TaintExists (taints : List Taint) (toFind : Taint) : Bool :=
  taints.any fun t => MatchTaint t toFind

/-- Modelled from the spec: `DeleteTaint` of the missing `internal/taints`
package.  The spec describes the diff as "a value-insensitive set
difference keyed on `(key, effect)`": deletion drops every taint of the
list matching the given taint and reports whether any was dropped. -/
def DeleteTaint (taints : List Taint) (toDelete : Taint) : List Taint × Bool :=
  (taints.filter (fun t => !(MatchTaint toDelete t)), taints.any fun t => MatchTaint toDelete t)

/-! ## The diff engine -/

/-- The loop body shared by `makeNewTaintsForNode` and
`excludeTaintsFromNode`: starting from the node's taints, for each removal
spec that exists in the working list, delete it and accumulate the
`deleted` flag. -/
def removalLoop (nodeTaints : List Taint) (taints : List Taint) : List Taint × Bool :=
  taints.foldl
    (fun acc taint =>
      if !(TaintExists acc.1 taint) then acc
      else
        let r := DeleteTaint acc.1 taint
        (r.1, acc.2 || r.2))
    (nodeTaints, false)

/-- `makeNewTaintsForNode` (current revision): nil target gives
`(nil, false)`; otherwise run the removal loop over the node's taints. -/
def makeNewTaintsForNode (target : Option Node) (taints : List Taint) : List Taint × Bool :=
  match target with
  | none => ([], false)
  | some n => removalLoop n.taints taints

/-- `excludeTaintsFromNode` (old revision): identical to
`makeNewTaintsForNode` except that it receives the removal specs by value
rather than by pointer. -/
def excludeTaintsFromNode (target : Option Node) (taints : List Taint) : List Taint × Bool :=
  match target with
  | none => ([], false)
  | some n => removalLoop n.taints taints

/-- A taint of the node survives the diff iff its `(key, effect)` pair
occurs nowhere in the removal set. -/
def survives (removalSet : List Taint) (t : Taint) : Bool :=
  !(removalSet.any fun s => MatchTaint s t)

/-! ## Collecting the removal set -/

/-- The dedup key built by `fmt.Sprintf("%s:%s", t.Key, t.Effect)` in
`getAllTaintsToRemove`. -/
def taintMapKey (t : Taint) : String :=
  t.key ++ ":" ++ t.effect.str

/-- The collection loop of `getAllTaintsToRemove` (current revision):
iterate the TaintRemover objects in listing order and their declared taints
in order, tracking seen `key:effect` strings in a set (modelled as the list
of inserted strings) and appending each taint whose dedup key is new.
Returns nil when there are no remover objects.  (The Go function finally
applies `ConvertToPointerArray`; the pointees are the values collected
here.) -/
def collectTaints (items : List Remover) : List Taint :=
  if items.length < 1 then []
  else
    (items.foldl
      (fun acc v =>
        v.taints.foldl
          (fun acc2 t =>
            if acc2.1.contains (taintMapKey t) then acc2
            else (taintMapKey t :: acc2.1, acc2.2 ++ [t]))
          acc)
      (([] : List String), ([] : List Taint))).2

/-- The collection loop of `getTaints` (old revision): same iteration, but
a candidate taint is skipped when `TaintExists` already finds its
`(key, effect)` pair among the collected taints. -/
def getTaintsCollect (items : List Remover) : List Taint :=
  if items.length < 1 then []
  else
    items.foldl
      (fun acc v =>
        v.taints.foldl
          (fun acc2 t => if TaintExists acc2 t then acc2 else acc2 ++ [t])
          acc)
      []

/-- Specification-side dedup: keep the first occurrence of each
`(key, effect)` pair, given the pairs already seen. -/
def dedupPairs (seen : List (String × Effect)) : List Taint → List Taint
  | [] => []
  | t :: rest =>
    if (t.key, t.effect) ∈ seen then dedupPairs seen rest
    else t :: dedupPairs ((t.key, t.effect) :: seen) rest

/-- Specification-side count of the later duplicates: the number of taints
whose `(key, effect)` pair already occurred earlier (or in `seen`). -/
def laterDupCount (seen : List (String × Effect)) : List Taint → Nat
  | [] => 0
  | t :: rest =>
    if (t.key, t.effect) ∈ seen then laterDupCount seen rest + 1
    else laterDupCount ((t.key, t.effect) :: seen) rest

/-! ## `ConvertToPointerArray`

A Go pointer `&arr[i]` into the backing array of `arr` is modelled as the
index `i`; the nil pointer is `none`.  `make([]*T, len(arr))` allocates a
slice of nil pointers and the loop assigns `result[i] = &arr[i]` for
`i = 0, 1, ...`, which builds the index list in increasing order. -/

/-- `ConvertToPointerArray`: the i-th result element is a pointer to the
i-th element of `arr`. -/
def ConvertToPointerArray {α : Type} (arr : List α) : List (Option Nat) :=
  (List.range arr.length).foldl (fun acc i => acc ++ [some i]) []

/-- Dereference a modelled pointer inside the backing array `arr`. -/
def derefIn {α : Type} (arr : List α) (p : Option Nat) : Option α :=
  p.bind fun i => arr[i]?

/-! ## The client model

The controller reaches the cluster only through `List`, `Get` and `Patch`
of the controller-runtime client.  A `Cluster` fixes the outcome of each
of those calls; every call made is recorded in an operation log. -/

/-- Errors surfaced by the modelled client.  `notFound` is the class
recognized by `errors.IsNotFound`. -/
inductive KError where
  | notFound
  | apiErr (msg : String)
deriving DecidableEq, Repr

/-- One client call, as recorded in the operation log. -/
inductive ClientOp where
  | listRemovers
  | listNodes
  | getNode (name : String)
  | patch (name : String)
deriving DecidableEq, Repr

/-- The outcomes of the client calls a reconciliation pass can make. -/
structure Cluster where
  removersResult : Except KError (List Remover)
  nodesResult : Except KError (List Node)
  nodeByName : String → Except KError Node
  patchResult : String → Option KError

/-- Number of `Patch` calls recorded in an operation log. -/
def patchCallCount (ops : List ClientOp) : Nat :=
  (ops.filter fun op =>
    match op with
    | .patch _ => true
    | _ => false).length

/-- `getAllTaintsToRemove`: list the TaintRemover objects; a listing error
is returned as such, otherwise the deduplicated taints are collected. -/
def getAllTaintsToRemove (cl : Cluster) : Except KError (List Taint) × List ClientOp :=
  match cl.removersResult with
  | .error e => (.error e, [.listRemovers])
  | .ok items => (.ok (collectTaints items), [.listRemovers])

/-- `getTaintedNodes`: list all nodes; keep (a deep copy of, i.e. the value
of) every node whose taint list is non-empty. -/
def getTaintedNodes (cl : Cluster) : Except KError (List Node) × List ClientOp :=
  match cl.nodesResult with
  | .error e => (.error e, [.listNodes])
  | .ok items => (.ok (items.filter fun n => n.taints.length > 0), [.listNodes])

/-- One entry of the patch batch built by `makePatches`: a deep copy of
the node together with the patch payload `spec.taints` it should receive. -/
structure PatchEntry where
  node : Node
  newTaints : List Taint
deriving DecidableEq, Repr

/-- `makePatches`: run the diff on every node; nodes with an unchanged
taint list are skipped, every other node contributes one entry holding a
deep copy of the node and the new taint list. -/
def makePatches (nodes : List Node) (taints : List Taint) : List PatchEntry :=
  nodes.foldl
    (fun acc n =>
      let r := makeNewTaintsForNode (some n) taints
      if !r.2 then acc
      else acc ++ [{ node := n, newTaints := r.1 }])
    []

/-- `patchNodesToRemoveTaints`: apply each patch of the batch; a patch
failure is remembered as the last error and the loop continues; the count
of successful patches is returned with the last error. -/
def patchNodesToRemoveTaints (cl : Cluster) (nodes : List Node) (taints : List Taint) :
    (Nat × Option KError) × List ClientOp :=
  (makePatches nodes taints).foldl
    (fun acc p =>
      match cl.patchResult p.node.name with
      | some e => ((acc.1.1, some e), acc.2 ++ [.patch p.node.name])
      | none => ((acc.1.1 + 1, acc.1.2), acc.2 ++ [.patch p.node.name]))
    ((0, none), [])

/-- `Reconcile` (current revision): collect the removal set (a listing
error is fatal), stop successfully when it is empty; select the tainted
nodes (a listing error is fatal), stop successfully when none; otherwise
patch and return the last patch error, if any. -/
def Reconcile (cl : Cluster) : Except KError Unit × List ClientOp :=
  match getAllTaintsToRemove cl with
  | (.error e, ops) => (.error e, ops)
  | (.ok taints, ops) =>
    if taints.length < 1 then (.ok (), ops)
    else
      match getTaintedNodes cl with
      | (.error e, ops2) => (.error e, ops ++ ops2)
      | (.ok nodes, ops2) =>
        if nodes.length < 1 then (.ok (), ops ++ ops2)
        else
          let r := patchNodesToRemoveTaints cl nodes taints
          (match r.1.2 with
           | some e => .error e
           | none => .ok (), ops ++ ops2 ++ r.2)

/-- `getNodeAndCheckTaints`: get the node by name; any get error (not
found included) is returned; a node without taints yields `none`. -/
def getNodeAndCheckTaints (cl : Cluster) (name : String) :
    Except KError (Option Node) × List ClientOp :=
  match cl.nodeByName name with
  | .error e => (.error e, [.getNode name])
  | .ok found =>
    if found.taints.length < 1 then (.ok none, [.getNode name])
    else (.ok (some found), [.getNode name])

/-- `applyRemoveTaintOnNode` (incremental path): look the node up; when
the lookup errs or yields no target, return the lookup error (nil for the
zero-taint case); otherwise collect the removal set and patch this single
node, returning that operation error, if any. -/
def applyRemoveTaintOnNode (cl : Cluster) (name : String) :
    Option KError × List ClientOp :=
  match getNodeAndCheckTaints cl name with
  | (.error e, ops) => (some e, ops)
  | (.ok none, ops) => (none, ops)
  | (.ok (some found), ops) =>
    match getAllTaintsToRemove cl with
    | (.error e, ops2) => (some e, ops ++ ops2)
    | (.ok taints, ops2) =>
      let r := patchNodesToRemoveTaints cl [found] taints
      (r.1.2, ops ++ ops2 ++ r.2)

/-! ## Concrete instances used to witness the theorems below -/

/-- A node carrying one removable taint, used by witnesses. -/
def wNode (nm : String) : Node :=
  { name := nm, taints := [{ key := "k", value := "v", effect := .noSchedule }] }

/-- The removal spec matching the taint of `wNode`. -/
def wSpec : Taint :=
  { key := "k", value := "", effect := .noSchedule }

/-- A cluster of three patchable nodes where patching `n2` fails. -/
def clusterBatch : Cluster where
  removersResult := .ok [{ taints := [wSpec] }]
  nodesResult := .ok [wNode "n1", wNode "n2", wNode "n3"]
  nodeByName := fun _ => .error .notFound
  patchResult := fun nm => if nm == "n2" then some (.apiErr "patch failed") else none

/-- A cluster where the node lookup reports not-found. -/
def clusterGone : Cluster where
  removersResult := .ok [{ taints := [wSpec] }]
  nodesResult := .ok []
  nodeByName := fun _ => .error .notFound
  patchResult := fun _ => none

/-- A cluster whose single node carries no taint. -/
def clusterUntainted : Cluster where
  removersResult := .ok [{ taints := [wSpec] }]
  nodesResult := .ok [{ name := "n1", taints := [] }]
  nodeByName := fun nm => .ok { name := nm, taints := [] }
  patchResult := fun _ => none

/-- A cluster whose sources declare no taints at all. -/
def clusterNoSpecs : Cluster where
  removersResult := .ok []
  nodesResult := .ok [wNode "n1"]
  nodeByName := fun _ => .error .notFound
  patchResult := fun _ => none

/-- A cluster where listing the TaintRemover objects fails. -/
def clusterListFail : Cluster where
  removersResult := .error (.apiErr "list failed")
  nodesResult := .ok [wNode "n1"]
  nodeByName := fun _ => .error .notFound
  patchResult := fun _ => none

/-! ## Theorems: the diff engine -/

theorem any_congr_of_mem {α : Type} {l : List α} {f g : α → Bool}
    (h : ∀ x ∈ l, f x = g x) : l.any f = l.any g := by
  induction l with
  | nil => rfl
  | cons a l ih =>
    simp only [List.any_cons]
    rw [h a (by simp), ih fun x hx => h x (by simp [hx])]

theorem matchTaint_comm (a b : Taint) : MatchTaint a b = MatchTaint b a := by
  apply Bool.eq_iff_iff.mpr
  simp only [MatchTaint, Bool.and_eq_true, beq_iff_eq]
  constructor <;> rintro ⟨h1, h2⟩ <;> exact ⟨h1.symm, h2.symm⟩

/-- The removal loop computes the `(key, effect)`-keyed set difference:
the surviving taints are the filter by `survives`, and the `deleted` flag
is set iff some taint does not survive. -/
theorem removalLoop_eq (R T : List Taint) :
    removalLoop T R = (T.filter (survives R), T.any fun t => !(survives R t)) := by
  have main : ∀ (R T : List Taint) (b : Bool),
      List.foldl
        (fun acc taint =>
          if !(TaintExists acc.1 taint) then acc
          else
            let r := DeleteTaint acc.1 taint
            (r.1, acc.2 || r.2))
        (T, b) R
      = (T.filter (survives R), b || T.any fun t => !(survives R t)) := by
    intro R
    induction R with
    | nil =>
      intro T b
      simp only [List.foldl_nil]
      have h1 : T.filter (survives []) = T :=
        List.filter_eq_self.mpr fun a _ => by simp [survives]
      have h2 : (T.any fun t => !(survives [] t)) = false := by
        rw [List.any_eq_false]
        intro t ht
        simp [survives]
      rw [h1, h2, Bool.or_false]
    | cons s R ih =>
      intro T b
      rw [List.foldl_cons]
      by_cases h : TaintExists T s
      · have hstep :
            (if !(TaintExists T s) then (T, b)
             else
               let r := DeleteTaint T s
               (r.1, b || r.2))
            = ((T.filter fun t => !(MatchTaint s t)), b || T.any fun t => MatchTaint s t) := by
          simp [h, DeleteTaint]
        rw [hstep, ih]
        have hdel : (T.any fun t => MatchTaint s t) = true := by
          rcases List.any_eq_true.mp h with ⟨t, ht, hm⟩
          exact List.any_eq_true.mpr ⟨t, ht, (matchTaint_comm s t).symm ▸ hm⟩
        have hfst :
            ((T.filter fun t => !(MatchTaint s t)).filter (survives R))
              = T.filter (survives (s :: R)) := by
          rw [List.filter_filter]
          apply List.filter_congr
          intro t _
          simp [survives, List.any_cons, Bool.not_or, Bool.and_comm]
        have hsnd : (T.any fun t => !(survives (s :: R) t)) = true := by
          rcases List.any_eq_true.mp hdel with ⟨t, ht, hm⟩
          refine List.any_eq_true.mpr ⟨t, ht, ?_⟩
          simp [survives, List.any_cons, hm]
        rw [hfst, hdel, hsnd]
        simp
      · have hstep :
            (if !(TaintExists T s) then (T, b)
             else
               let r := DeleteTaint T s
               (r.1, b || r.2))
            = (T, b) := by
          simp [h]
        rw [hstep, ih]
        have hnone : ∀ t ∈ T, MatchTaint s t = false := by
          intro t ht
          have h0 : (T.any fun u => MatchTaint u s) = false := by
            simpa [TaintExists] using h
          have h1 := List.any_eq_false.mp h0 t ht
          rw [matchTaint_comm]
          simpa using h1
        have hfst : T.filter (survives R) = T.filter (survives (s :: R)) := by
          apply List.filter_congr
          intro t ht
          simp [survives, List.any_cons, hnone t ht]
        have hsnd :
            (T.any fun t => !(survives R t)) = T.any fun t => !(survives (s :: R) t) := by
          apply any_congr_of_mem
          intro t ht
          simp [survives, List.any_cons, hnone t ht]
        rw [hfst, hsnd]
  simpa [removalLoop] using main R T false

/-- Strict shrinking of a filter is equivalent to some element failing the
predicate. -/
theorem filter_length_lt_iff {α : Type} (l : List α) (p : α → Bool) :
    (l.filter p).length < l.length ↔ ∃ t ∈ l, p t = false := by
  constructor
  · intro hlt
    by_contra hc
    push_neg at hc
    have hall : ∀ t ∈ l, p t = true := by
      intro t ht
      cases hpt : p t with
      | true => rfl
      | false => exact absurd hpt (hc t ht)
    have : l.filter p = l := List.filter_eq_self.mpr hall
    simp [this] at hlt
  · rintro ⟨t, ht, hf⟩
    rcases Nat.lt_or_ge (l.filter p).length l.length with h | h
    · exact h
    · exfalso
      have hle := List.length_filter_le p l
      have heq : (l.filter p).length = l.length := Nat.le_antisymm hle h
      have : l.filter p = l := (List.filter_sublist l).eq_of_length heq
      have := List.filter_eq_self.mp this t ht
      simp [hf] at this

/-- C1: for every node taint list `T` and removal set `R`, the diff
(`makeNewTaintsForNode`, and identically `excludeTaintsFromNode`) keeps
exactly the taints whose `(key, effect)` pair occurs nowhere in `R`, in
their original relative order (a filter of `T`); `changed` is true iff the
result is shorter than `T`; and rewriting every value of the removal set
arbitrarily does not change the result, so the value field never
influences whether a taint is removed. -/
theorem diff_is_value_insensitive_pair_difference (n : Node) (R : List Taint)
    (f : Taint → String) :
    (makeNewTaintsForNode (some n) R).1 = n.taints.filter (survives R)
    ∧ ((makeNewTaintsForNode (some n) R).2 = true
        ↔ (makeNewTaintsForNode (some n) R).1.length < n.taints.length)
    ∧ excludeTaintsFromNode (some n) R = makeNewTaintsForNode (some n) R
    ∧ (makeNewTaintsForNode (some n) (R.map fun s => { s with value := f s })).1
        = (makeNewTaintsForNode (some n) R).1 := by
  refine ⟨?_, ?_, rfl, ?_⟩
  · simp [makeNewTaintsForNode, removalLoop_eq]
  · simp only [makeNewTaintsForNode, removalLoop_eq]
    rw [filter_length_lt_iff]
    rw [List.any_eq_true]
    constructor
    · rintro ⟨t, ht, hs⟩
      exact ⟨t, ht, by simpa using hs⟩
    · rintro ⟨t, ht, hs⟩
      exact ⟨t, ht, by simpa using hs⟩
  · simp only [makeNewTaintsForNode, removalLoop_eq]
    apply List.filter_congr
    intro t _
    simp only [survives, List.any_map]
    rfl

/-- C2: the diff is idempotent — running it again with the same removal
set on the taints produced by a first diff changes nothing and reports
`changed = false`. -/
theorem diff_idempotent (n : Node) (R : List Taint) :
    makeNewTaintsForNode
        (some { name := n.name, taints := (makeNewTaintsForNode (some n) R).1 }) R
      = ((makeNewTaintsForNode (some n) R).1, false) := by
  simp only [makeNewTaintsForNode, removalLoop_eq, Prod.mk.injEq]
  constructor
  · rw [List.filter_filter]
    apply List.filter_congr
    intro t _
    simp [Bool.and_self]
  · rw [List.any_eq_false]
    intro t ht
    have := List.mem_filter.mp ht
    simp [this.2]

/-- C8 counterexample: a node carrying two taints with the same
`(key, effect)` pair loses both of them — the diff does not keep one, so
it does not remove only the first match per spec. -/
theorem diff_keeps_no_duplicate_counterexample :
    makeNewTaintsForNode
        (some { name := "node1",
                taints := [{ key := "k", value := "v1", effect := .noSchedule },
                           { key := "k", value := "v2", effect := .noSchedule }] })
        [{ key := "k", value := "", effect := .noSchedule }]
      = ([], true)
    ∧ (makeNewTaintsForNode
        (some { name := "node1",
                taints := [{ key := "k", value := "v1", effect := .noSchedule },
                           { key := "k", value := "v2", effect := .noSchedule }] })
        [{ key := "k", value := "", effect := .noSchedule }]).1.length ≠ 1 := by
  constructor
  · decide
  · decide

/-- C8 amended: the diff proceeds spec-by-spec in registry order, but each
matched spec removes every taint of the working list with the same
`(key, effect)` pair, not only the first; in particular a node carrying
two taints with the same pair loses both of them when the pair is
matched. -/
theorem diff_step_removes_all_matches (T : List Taint) (s : Taint) (R : List Taint)
    (nm k v1 v2 v : String) (e : Effect) :
    removalLoop T (s :: R)
      = ((removalLoop (T.filter fun t => !(MatchTaint s t)) R).1,
         (T.any fun t => MatchTaint s t)
           || (removalLoop (T.filter fun t => !(MatchTaint s t)) R).2)
    ∧ makeNewTaintsForNode
        (some { name := nm,
                taints := [{ key := k, value := v1, effect := e },
                           { key := k, value := v2, effect := e }] })
        [{ key := k, value := v, effect := e }]
      = ([], true) := by
  constructor
  · simp only [removalLoop_eq, Prod.mk.injEq]
    constructor
    · rw [List.filter_filter]
      apply List.filter_congr
      intro t _
      simp [survives, List.any_cons, Bool.not_or, Bool.and_comm]
    · apply Bool.eq_iff_iff.mpr
      simp only [List.any_eq_true, List.mem_filter, Bool.or_eq_true, Bool.not_eq_true',
        survives, Bool.not_eq_true]
      constructor
      · rintro ⟨t, ht, hst⟩
        have hst1 : ((s :: R).any fun u => MatchTaint u t) = true := by
          revert hst
          cases (s :: R).any fun u => MatchTaint u t <;> simp
        have hst2 : (MatchTaint s t || R.any fun u => MatchTaint u t) = true := by
          rw [List.any_cons] at hst1
          exact hst1
        cases hpt : MatchTaint s t with
        | true => exact Or.inl ⟨t, ht, hpt⟩
        | false =>
          have hR : (R.any fun u => MatchTaint u t) = true := by
            simpa [hpt] using hst2
          exact Or.inr ⟨t, ⟨ht, hpt⟩, by simp [hR]⟩
      · rintro (⟨t, ht, hst⟩ | ⟨t, ⟨ht, hnm⟩, hr⟩)
        · refine ⟨t, ht, ?_⟩
          simp [List.any_cons, hst]
        · refine ⟨t, ht, ?_⟩
          have hr2 : (R.any fun u => MatchTaint u t) = true := by
            simpa using hr
          simp [List.any_cons, hr2]
  · simp [makeNewTaintsForNode, removalLoop_eq, survives, MatchTaint,
      List.filter_cons, List.any_cons]

/-! ## Theorems: collecting and deduplicating the removal set -/

theorem contains_true_iff {α : Type} [BEq α] [LawfulBEq α] (l : List α) (a : α) :
    l.contains a = true ↔ a ∈ l := by
  simp [List.contains_eq_any_beq, List.any_eq_true, beq_iff_eq]

theorem no_cross_suffix (s1 s2 m : List Char) (hne : ¬ (s2 <:+ s1)) (hm : s1 = m ++ s2) :
    False :=
  hne ⟨m, hm.symm⟩

/-- The `key:effect` dedup string of `getAllTaintsToRemove` identifies the
`(key, effect)` pair: the three valid effect strings make the encoding
injective even for keys containing a colon. -/
theorem taintMapKey_inj (a b : Taint) (h : taintMapKey a = taintMapKey b) :
    a.key = b.key ∧ a.effect = b.effect := by
  have hcolon : (":" : String).data = [':'] := rfl
  have hd : a.key.data ++ ([':'] ++ a.effect.str.data)
      = b.key.data ++ ([':'] ++ b.effect.str.data) := by
    have h2 := congrArg String.data h
    simp only [taintMapKey, String.data_append, hcolon, List.append_assoc] at h2
    exact h2
  cases ha : a.effect <;> cases hb : b.effect <;> rw [ha, hb] at hd <;>
    simp only [Effect.str] at hd <;>
    first
    | exact ⟨String.ext (List.append_inj_left' hd rfl), rfl⟩
    | rcases List.append_eq_append_iff.mp hd with ⟨m, -, hm⟩ | ⟨m, -, hm⟩ <;>
        exact (no_cross_suffix _ _ m (by decide) hm).elim

theorem taintMapKey_eq_iff (a b : Taint) :
    taintMapKey a = taintMapKey b ↔ a.key = b.key ∧ a.effect = b.effect := by
  constructor
  · exact taintMapKey_inj a b
  · rintro ⟨h1, h2⟩
    simp [taintMapKey, h1, h2]

theorem foldl_foldl_flatMap {α β γ : Type} (f : γ → β → γ) (g : α → List β)
    (items : List α) (acc : γ) :
    items.foldl (fun a v => (g v).foldl f a) acc = (items.flatMap g).foldl f acc := by
  induction items generalizing acc with
  | nil => rfl
  | cons v items ih => simp [List.flatMap_cons, List.foldl_append, ih]

/-- The string-keyed collection loop of `getAllTaintsToRemove` computes the
first-occurrence dedup by `(key, effect)` pair, given that the seen-string
set corresponds to the seen pairs. -/
theorem collectLoop_eq (l : List Taint) :
    ∀ (seenKeys : List String) (seenPairs : List (String × Effect)) (acc : List Taint),
      (∀ t : Taint, taintMapKey t ∈ seenKeys ↔ (t.key, t.effect) ∈ seenPairs) →
      (l.foldl
        (fun acc2 t =>
          if acc2.1.contains (taintMapKey t) then acc2
          else (taintMapKey t :: acc2.1, acc2.2 ++ [t]))
        (seenKeys, acc)).2
      = acc ++ dedupPairs seenPairs l := by
  induction l with
  | nil =>
    intro seenKeys seenPairs acc _
    simp [dedupPairs]
  | cons t l ih =>
    intro seenKeys seenPairs acc hinv
    rw [List.foldl_cons]
    by_cases hc : taintMapKey t ∈ seenKeys
    · have hcb : seenKeys.contains (taintMapKey t) = true := (contains_true_iff _ _).mpr hc
      have hp : (t.key, t.effect) ∈ seenPairs := (hinv t).mp hc
      simp only [hcb, if_true]
      rw [ih seenKeys seenPairs acc hinv]
      simp [dedupPairs, hp]
    · have hcb : seenKeys.contains (taintMapKey t) = false := by
        cases h0 : seenKeys.contains (taintMapKey t) with
        | false => rfl
        | true => exact absurd ((contains_true_iff _ _).mp h0) hc
      have hp : (t.key, t.effect) ∉ seenPairs := fun hmem => hc ((hinv t).mpr hmem)
      simp only [hcb, Bool.false_eq_true, if_false]
      have hinv2 : ∀ u : Taint,
          taintMapKey u ∈ taintMapKey t :: seenKeys
            ↔ (u.key, u.effect) ∈ (t.key, t.effect) :: seenPairs := by
        intro u
        simp only [List.mem_cons]
        constructor
        · rintro (h1 | h1)
          · rcases taintMapKey_inj u t h1 with ⟨h2, h3⟩
            exact Or.inl (by rw [h2, h3])
          · exact Or.inr ((hinv u).mp h1)
        · rintro (h1 | h1)
          · refine Or.inl ((taintMapKey_eq_iff u t).mpr ?_)
            exact ⟨congrArg Prod.fst h1, congrArg Prod.snd h1⟩
          · exact Or.inr ((hinv u).mpr h1)
      rw [ih (taintMapKey t :: seenKeys) ((t.key, t.effect) :: seenPairs) (acc ++ [t]) hinv2]
      simp [dedupPairs, hp]

/-- The `TaintExists`-keyed collection loop of the old `getTaints` computes
the same first-occurrence dedup, given that the pairs of the accumulator
are the seen pairs. -/
theorem getTaintsLoop_eq (l : List Taint) :
    ∀ (acc : List Taint) (seenPairs : List (String × Effect)),
      (∀ u : Taint, TaintExists acc u = true ↔ (u.key, u.effect) ∈ seenPairs) →
      l.foldl (fun acc2 t => if TaintExists acc2 t then acc2 else acc2 ++ [t]) acc
        = acc ++ dedupPairs seenPairs l := by
  induction l with
  | nil =>
    intro acc seenPairs _
    simp [dedupPairs]
  | cons t l ih =>
    intro acc seenPairs hinv
    rw [List.foldl_cons]
    by_cases hc : TaintExists acc t
    · have hp : (t.key, t.effect) ∈ seenPairs := (hinv t).mp hc
      simp only [hc, if_true]
      rw [ih acc seenPairs hinv]
      simp [dedupPairs, hp]
    · have hp : (t.key, t.effect) ∉ seenPairs := fun hmem => hc ((hinv t).mpr hmem)
      have hcb : TaintExists acc t = false := by
        cases h0 : TaintExists acc t with
        | false => rfl
        | true => exact absurd h0 hc
      simp only [hcb, Bool.false_eq_true, if_false]
      have hinv2 : ∀ u : Taint,
          TaintExists (acc ++ [t]) u = true
            ↔ (u.key, u.effect) ∈ (t.key, t.effect) :: seenPairs := by
        intro u
        simp only [TaintExists, List.any_append, List.any_cons, List.any_nil,
          Bool.or_false, Bool.or_eq_true, List.mem_cons]
        constructor
        · rintro (h1 | h1)
          · exact Or.inr ((hinv u).mp h1)
          · simp only [MatchTaint, Bool.and_eq_true, beq_iff_eq] at h1
            exact Or.inl (by rw [h1.1, h1.2])
        · rintro (h1 | h1)
          · refine Or.inr ?_
            simp only [MatchTaint, Bool.and_eq_true, beq_iff_eq]
            exact ⟨(congrArg Prod.fst h1).symm, (congrArg Prod.snd h1).symm⟩
          · exact Or.inl ((hinv u).mpr h1)
      rw [ih (acc ++ [t]) ((t.key, t.effect) :: seenPairs) hinv2]
      simp [dedupPairs, hp]

/-- Dedup output length plus the count of later duplicates is the input
length. -/
theorem dedupPairs_length (l : List Taint) :
    ∀ seen, (dedupPairs seen l).length + laterDupCount seen l = l.length := by
  induction l with
  | nil => intro seen; simp [dedupPairs, laterDupCount]
  | cons t l ih =>
    intro seen
    by_cases hp : (t.key, t.effect) ∈ seen
    · simp only [dedupPairs, laterDupCount, hp, if_true]
      rw [← Nat.add_assoc, ih seen]
      simp
    · simp only [dedupPairs, laterDupCount, hp, if_false]
      simp only [List.length_cons]
      rw [Nat.succ_add, ih ((t.key, t.effect) :: seen)]

/-- C3: both collectors keep, per `(key, effect)` pair, exactly the first
occurrence in source-listing-then-declaration order, silently dropping the
later duplicates; hence the collected removal set of N declared specs with
D later duplicates has exactly N − D entries. -/
theorem collected_removal_set_dedups_first_occurrence (removers : List Remover) :
    collectTaints removers = dedupPairs [] (removers.flatMap Remover.taints)
    ∧ getTaintsCollect removers = dedupPairs [] (removers.flatMap Remover.taints)
    ∧ (collectTaints removers).length
        = (removers.flatMap Remover.taints).length
            - laterDupCount [] (removers.flatMap Remover.taints) := by
  have hmain : collectTaints removers = dedupPairs [] (removers.flatMap Remover.taints) := by
    cases removers with
    | nil => simp [collectTaints, dedupPairs]
    | cons r rs =>
      simp only [collectTaints, List.length_cons]
      rw [if_neg (by omega)]
      rw [foldl_foldl_flatMap
        (fun acc2 t =>
          if acc2.1.contains (taintMapKey t) then acc2
          else (taintMapKey t :: acc2.1, acc2.2 ++ [t]))
        Remover.taints (r :: rs) (([] : List String), ([] : List Taint))]
      exact collectLoop_eq _ [] [] [] (by simp)
  have hold : getTaintsCollect removers = dedupPairs [] (removers.flatMap Remover.taints) := by
    cases removers with
    | nil => simp [getTaintsCollect, dedupPairs]
    | cons r rs =>
      simp only [getTaintsCollect, List.length_cons]
      rw [if_neg (by omega)]
      rw [foldl_foldl_flatMap
        (fun acc2 t => if TaintExists acc2 t then acc2 else acc2 ++ [t])
        Remover.taints (r :: rs) []]
      exact getTaintsLoop_eq _ [] [] (by simp [TaintExists])
  refine ⟨hmain, hold, ?_⟩
  rw [hmain]
  have := dedupPairs_length (removers.flatMap Remover.taints) []
  omega

/-! ## Theorems: the batch patch loop -/

theorem getLast?_or_shift {α : Type} (l : List α) :
    ∀ (e : α) (e0 : Option α), (e :: l).getLast?.or e0 = l.getLast?.or (some e) := by
  induction l with
  | nil => intro e e0; rfl
  | cons x xs ih =>
    intro e e0
    rw [List.getLast?_cons_cons, ih x e0, ih x (some e)]

/-- The patch loop visits every entry of the batch, counts the successful
patches, and keeps the last error. -/
theorem patchLoop_eq (cl : Cluster) (ps : List PatchEntry) :
    ∀ (r0 : Nat) (e0 : Option KError) (ops0 : List ClientOp),
      ps.foldl
        (fun acc p =>
          match cl.patchResult p.node.name with
          | some e => ((acc.1.1, some e), acc.2 ++ [.patch p.node.name])
          | none => ((acc.1.1 + 1, acc.1.2), acc.2 ++ [.patch p.node.name]))
        ((r0, e0), ops0)
      = ((r0 + (ps.filter fun p => (cl.patchResult p.node.name).isNone).length,
          (ps.filterMap fun p => cl.patchResult p.node.name).getLast?.or e0),
         ops0 ++ ps.map fun p => ClientOp.patch p.node.name) := by
  induction ps with
  | nil =>
    intro r0 e0 ops0
    simp
  | cons p ps ih =>
    intro r0 e0 ops0
    rw [List.foldl_cons]
    cases hp : cl.patchResult p.node.name with
    | some e =>
      simp only [hp]
      rw [ih r0 (some e) (ops0 ++ [ClientOp.patch p.node.name])]
      simp only [List.filter_cons, List.filterMap_cons, List.map_cons, hp,
        Option.isNone_some, Bool.false_eq_true, if_false]
      rw [getLast?_or_shift]
      simp
    | none =>
      simp only [hp]
      rw [ih (r0 + 1) e0 (ops0 ++ [ClientOp.patch p.node.name])]
      simp only [List.filter_cons, List.filterMap_cons, List.map_cons, hp,
        Option.isNone_none, if_true, List.length_cons]
      simp only [Prod.mk.injEq]
      exact ⟨⟨by omega, by trivial⟩, by simp⟩

/-- C4: a patch failure never aborts the batch — `patchNodesToRemoveTaints`
attempts a patch call for every entry of the batch (in order), returns the
count of successfully patched nodes, and returns the last error
encountered, which is non-nil whenever some patch failed. -/
theorem patch_failure_does_not_abort_batch (cl : Cluster) (nodes : List Node)
    (taints : List Taint) :
    (patchNodesToRemoveTaints cl nodes taints).2
        = (makePatches nodes taints).map (fun p => ClientOp.patch p.node.name)
    ∧ (patchNodesToRemoveTaints cl nodes taints).1.1
        = ((makePatches nodes taints).filter
            fun p => (cl.patchResult p.node.name).isNone).length
    ∧ (patchNodesToRemoveTaints cl nodes taints).1.2
        = ((makePatches nodes taints).filterMap fun p => cl.patchResult p.node.name).getLast?
    ∧ ((∃ p ∈ makePatches nodes taints, cl.patchResult p.node.name ≠ none) →
        (patchNodesToRemoveTaints cl nodes taints).1.2 ≠ none) := by
  have hrun :
      patchNodesToRemoveTaints cl nodes taints
      = ((0 + ((makePatches nodes taints).filter
              fun p => (cl.patchResult p.node.name).isNone).length,
          ((makePatches nodes taints).filterMap fun p => cl.patchResult p.node.name).getLast?.or
            none),
         [] ++ (makePatches nodes taints).map fun p => ClientOp.patch p.node.name) := by
    rw [patchNodesToRemoveTaints, patchLoop_eq]
  refine ⟨?_, ?_, ?_, ?_⟩
  · rw [hrun]
    simp
  · rw [hrun]
    simp
  · rw [hrun]
    simp [Option.or_none]
  · rintro ⟨p, hp, he⟩
    rw [hrun]
    simp only [Option.or_none]
    intro hnone
    rcases Option.ne_none_iff_exists.mp he with ⟨e, he2⟩
    have hmem : e ∈ (makePatches nodes taints).filterMap fun p => cl.patchResult p.node.name :=
      List.mem_filterMap.mpr ⟨p, hp, he2.symm⟩
    have hnil := List.getLast?_eq_none_iff.mp hnone
    rw [hnil] at hmem
    simp at hmem

/-- C4 witness: three nodes need patching, patching `n2` fails; `n1` and
`n3` are still patched (`removed = 2`) and the returned error is
non-nil. -/
theorem patch_failure_does_not_abort_batch_witness :
    (patchNodesToRemoveTaints clusterBatch [wNode "n1", wNode "n2", wNode "n3"]
        [wSpec]).1.1 = 2
    ∧ (patchNodesToRemoveTaints clusterBatch [wNode "n1", wNode "n2", wNode "n3"]
        [wSpec]).1.2 ≠ none :=
  ⟨by decide,
   (patch_failure_does_not_abort_batch clusterBatch [wNode "n1", wNode "n2", wNode "n3"]
     [wSpec]).2.2.2 (by decide)⟩

/-! ## Theorems: the reconcile driver -/

/-- C7: a failure when listing the TaintRemover sources is fatal for the
pass — `Reconcile` returns that listing error upward, and the operation
log shows no node listing and no patch call happened. -/
theorem reconcile_listing_error_fatal (cl : Cluster) (e : KError)
    (h : cl.removersResult = .error e) :
    Reconcile cl = (.error e, [.listRemovers]) := by
  simp [Reconcile, getAllTaintsToRemove, h]

/-- C7 witness. -/
theorem reconcile_listing_error_fatal_witness :
    Reconcile clusterListFail = (.error (.apiErr "list failed"), [.listRemovers]) :=
  reconcile_listing_error_fatal clusterListFail (.apiErr "list failed") rfl

/-- C6: with an empty collected removal set, or with no node carrying any
taint, a full reconcile pass makes zero patch calls and returns without
error. -/
theorem reconcile_noop_short_circuit (cl : Cluster) :
    (∀ rs, cl.removersResult = .ok rs → collectTaints rs = [] →
        Reconcile cl = (.ok (), [.listRemovers]))
    ∧ (∀ rs ns, cl.removersResult = .ok rs → cl.nodesResult = .ok ns →
        (∀ n ∈ ns, n.taints = []) →
        (Reconcile cl).1 = .ok () ∧ patchCallCount (Reconcile cl).2 = 0) := by
  have hempty : ∀ rs, cl.removersResult = .ok rs → collectTaints rs = [] →
      Reconcile cl = (.ok (), [.listRemovers]) := by
    intro rs h1 h2
    simp [Reconcile, getAllTaintsToRemove, h1, h2]
  refine ⟨hempty, ?_⟩
  intro rs ns h1 h2 hall
  by_cases hcol : collectTaints rs = []
  · rw [hempty rs h1 hcol]
    simp [patchCallCount]
  · have hfil : ns.filter (fun n => n.taints.length > 0) = [] := by
      rw [List.filter_eq_nil_iff]
      intro n hn
      simp [hall n hn]
    have hlen : ¬ ((collectTaints rs).length < 1) := by
      have : (collectTaints rs).length ≠ 0 := fun h0 => hcol (List.length_eq_zero.mp h0)
      omega
    have hrec : Reconcile cl = (.ok (), [.listRemovers] ++ [.listNodes]) := by
      simp only [Reconcile, getAllTaintsToRemove, h1]
      rw [if_neg hlen]
      simp [getTaintedNodes, h2, hfil]
    rw [hrec]
    simp [patchCallCount]

/-- C6 witness: a cluster whose sources declare no taints, and a cluster
whose only node is untainted, both reconcile to success with zero patch
calls. -/
theorem reconcile_noop_short_circuit_witness :
    Reconcile clusterNoSpecs = (.ok (), [.listRemovers])
    ∧ (Reconcile clusterUntainted).1 = .ok ()
    ∧ patchCallCount (Reconcile clusterUntainted).2 = 0 :=
  ⟨(reconcile_noop_short_circuit clusterNoSpecs).1 [] rfl rfl,
   (reconcile_noop_short_circuit clusterUntainted).2 [{ taints := [wSpec] }]
     [{ name := "n1", taints := [] }] rfl rfl (by decide)⟩

/-! ## Theorems: the incremental path -/

/-- C5 counterexample: when the node lookup reports not-found,
`applyRemoveTaintOnNode` does not return nil — it returns the not-found
error. -/
theorem incremental_notfound_returns_error_counterexample :
    (applyRemoveTaintOnNode clusterGone "worker").1 ≠ none
    ∧ (applyRemoveTaintOnNode clusterGone "worker").1 = some .notFound := by
  constructor
  · decide
  · decide

/-- C5 amended: on the incremental path, a lookup that finds a node with
zero taints makes `applyRemoveTaintOnNode` return nil with no patch call;
a lookup that does not find the node also makes no patch call but returns
the not-found error instead of nil. -/
theorem incremental_no_target_behavior (cl : Cluster) (nm : String) :
    (cl.nodeByName nm = .error .notFound →
        applyRemoveTaintOnNode cl nm = (some .notFound, [.getNode nm]))
    ∧ (∀ n, cl.nodeByName nm = .ok n → n.taints = [] →
        applyRemoveTaintOnNode cl nm = (none, [.getNode nm])) := by
  constructor
  · intro h
    simp [applyRemoveTaintOnNode, getNodeAndCheckTaints, h]
  · intro n h hz
    simp [applyRemoveTaintOnNode, getNodeAndCheckTaints, h, hz]

/-- C5 witness: the two no-target outcomes at concrete clusters. -/
theorem incremental_no_target_behavior_witness :
    applyRemoveTaintOnNode clusterGone "worker" = (some .notFound, [.getNode "worker"])
    ∧ applyRemoveTaintOnNode clusterUntainted "n1" = (none, [.getNode "n1"]) :=
  ⟨(incremental_no_target_behavior clusterGone "worker").1 rfl,
   (incremental_no_target_behavior clusterUntainted "n1").2
     { name := "n1", taints := [] } rfl rfl⟩

/-! ## Theorems: pointer-array conversion and patch construction -/

theorem foldl_append_singleton_map {α β : Type} (f : α → β) (l : List α) :
    ∀ acc : List β, l.foldl (fun a i => a ++ [f i]) acc = acc ++ l.map f := by
  induction l with
  | nil => intro acc; simp
  | cons x l ih =>
    intro acc
    rw [List.foldl_cons, ih (acc ++ [f x])]
    simp

theorem range_map_getElem {α : Type} (arr : List α) :
    (List.range arr.length).map (fun i => arr[i]?) = arr.map some := by
  induction arr with
  | nil => simp
  | cons a l ih =>
    rw [List.length_cons, List.range_succ_eq_map]
    simp only [List.map_cons, List.getElem?_cons_zero, List.map_map]
    congr 1
    rw [← ih]
    apply List.map_congr_left
    intro i _
    simp [Function.comp, Nat.succ_eq_add_one, List.getElem?_cons_succ]

/-- C9: `ConvertToPointerArray` returns one pointer per element, the i-th
pointing at the i-th element of the input, so dereferencing element-wise
reproduces the input exactly and in order. -/
theorem convert_to_pointer_array_points_elementwise {α : Type} (arr : List α) :
    ConvertToPointerArray arr = (List.range arr.length).map some
    ∧ (ConvertToPointerArray arr).length = arr.length
    ∧ (ConvertToPointerArray arr).map (derefIn arr) = arr.map some := by
  have h1 : ConvertToPointerArray arr = (List.range arr.length).map some := by
    rw [ConvertToPointerArray, foldl_append_singleton_map]
    simp
  refine ⟨h1, ?_, ?_⟩
  · rw [h1]
    simp
  · rw [h1, List.map_map]
    have h2 : (derefIn arr) ∘ some = fun i => arr[i]? := by
      funext i
      rfl
    rw [h2, range_map_getElem]

theorem foldl_skip_append_eq_filterMap {α β : Type} (c : α → Bool) (g : α → β) (l : List α) :
    ∀ acc : List β,
      l.foldl (fun a n => if !(c n) then a else a ++ [g n]) acc
        = acc ++ l.filterMap (fun n => if c n then some (g n) else none) := by
  induction l with
  | nil => intro acc; simp
  | cons x l ih =>
    intro acc
    rw [List.foldl_cons]
    cases hc : c x with
    | true =>
      simp only [hc, Bool.not_true, Bool.false_eq_true, if_false]
      rw [ih (acc ++ [g x])]
      simp [List.filterMap_cons, hc]
    | false =>
      simp only [hc, Bool.not_false, if_true]
      rw [ih acc]
      simp [List.filterMap_cons, hc]

/-- C10: `makePatches` is a per-node selection — each input node yields at
most one entry, the batch is never longer than the input, and every entry
holds a copy of its input node whose taint list is the original one
(strictly longer than the new taint list the patch carries): building the
patches does not write the diffed taints back through any input node. -/
theorem makePatches_copies_and_frames_inputs (nodes : List Node) (taints : List Taint) :
    makePatches nodes taints
      = nodes.filterMap (fun n =>
          if (makeNewTaintsForNode (some n) taints).2 then
            some { node := n, newTaints := (makeNewTaintsForNode (some n) taints).1 }
          else none)
    ∧ (makePatches nodes taints).length ≤ nodes.length
    ∧ ∀ p ∈ makePatches nodes taints,
        p.node ∈ nodes
        ∧ p.newTaints = p.node.taints.filter (survives taints)
        ∧ p.newTaints.length < p.node.taints.length := by
  have h1 : makePatches nodes taints
      = nodes.filterMap (fun n =>
          if (makeNewTaintsForNode (some n) taints).2 then
            some { node := n, newTaints := (makeNewTaintsForNode (some n) taints).1 }
          else none) := by
    have hstep : (fun (acc : List PatchEntry) (n : Node) =>
        let r := makeNewTaintsForNode (some n) taints
        if !r.2 then acc else acc ++ [{ node := n, newTaints := r.1 }])
      = fun acc n =>
          if !((makeNewTaintsForNode (some n) taints).2) then acc
          else acc ++ [{ node := n, newTaints := (makeNewTaintsForNode (some n) taints).1 }] :=
      rfl
    rw [makePatches, hstep, foldl_skip_append_eq_filterMap
      (fun n => (makeNewTaintsForNode (some n) taints).2)
      (fun n =>
        ({ node := n, newTaints := (makeNewTaintsForNode (some n) taints).1 } : PatchEntry))
      nodes []]
    simp
  refine ⟨h1, ?_, ?_⟩
  · rw [h1]
    exact List.length_filterMap_le _ _
  · intro p hp
    rw [h1] at hp
    rcases List.mem_filterMap.mp hp with ⟨n, hn, hif⟩
    cases hflag : (makeNewTaintsForNode (some n) taints).2 with
    | false => simp [hflag] at hif
    | true =>
      simp only [hflag, if_true, Option.some.injEq] at hif
      have hfst : (makeNewTaintsForNode (some n) taints).1
          = n.taints.filter (survives taints) := by
        simp [makeNewTaintsForNode, removalLoop_eq]
      have hlt : (makeNewTaintsForNode (some n) taints).1.length < n.taints.length := by
        rw [hfst, filter_length_lt_iff]
        have hflag2 : (n.taints.any fun t => !(survives taints t)) = true := by
          have := hflag
          simpa [makeNewTaintsForNode, removalLoop_eq] using this
        rcases List.any_eq_true.mp hflag2 with ⟨t, ht, hs⟩
        exact ⟨t, ht, by simpa using hs⟩
      rw [← hif]
      exact ⟨hn, hfst, hlt⟩

end TaintRemover
